import Mathlib

/-!
Verification of the procedural sphere mesh generator, instanced scene
composition and orbit camera controller of the nbodysim renderer.

The Rust source is embedded shallowly: `f32` values are modelled as exact
real numbers, GPU-side buffers are replaced by the CPU-side arrays they are
created from, and the mutable `update_camera`/`process_events` methods become
explicit state-passing functions.  Loop nests that push into vectors become
`List.range`/`flatMap` constructions preserving the push order.
-/

open scoped Classical

/-- A 3-component vector, modelling `cgmath::Vector3<f32>` (and `Point3<f32>`)
with exact real coordinates. -/
@[ext] structure Vec3 where
  x : ℝ
  y : ℝ
  z : ℝ

/-- Componentwise addition, `Vector3::add`. -/
def Vec3.add (a b : Vec3) : Vec3 := ⟨a.x + b.x, a.y + b.y, a.z + b.z⟩

/-- Componentwise subtraction, `Vector3::sub` (also `Point3 - Point3`). -/
def Vec3.sub (a b : Vec3) : Vec3 := ⟨a.x - b.x, a.y - b.y, a.z - b.z⟩

/-- Scalar multiplication, `Vector3 * f32`. -/
def Vec3.smul (r : ℝ) (a : Vec3) : Vec3 := ⟨r * a.x, r * a.y, r * a.z⟩

/-- Dot product, `Vector3::dot`. -/
def Vec3.dot (a b : Vec3) : ℝ := a.x * b.x + a.y * b.y + a.z * b.z

/-- Cross product, `Vector3::cross`. -/
def Vec3.cross (a b : Vec3) : Vec3 :=
  ⟨a.y * b.z - a.z * b.y, a.z * b.x - a.x * b.z, a.x * b.y - a.y * b.x⟩

/-- Magnitude, `cgmath`'s `magnitude` = sqrt of the self dot product. -/
noncomputable def Vec3.norm (a : Vec3) : ℝ := Real.sqrt (a.dot a)

/-- Normalization, `cgmath`'s `normalize` = the vector scaled by the inverse
of its magnitude. -/
noncomputable def Vec3.normalize (a : Vec3) : Vec3 := Vec3.smul (a.norm)⁻¹ a

/-- One generated vertex, `SphereMeshVertex { position, color }` from
`src/sphere.rs`. -/
structure SphereMeshVertex where
  position : Vec3
  color : Vec3

/-- The vertex computed by the body of the `Mesh::new` loop at grid
coordinate `(x, y)`: `percent = (x, y) / (resolution - 1)`, the point on the
unit cube is `local_up + (percent.x - 0.5) * 2 * axis_a +
(percent.y - 0.5) * 2 * axis_b`, normalized onto the unit sphere, with the
fixed placeholder color `(0.5, 0.5, 0.5)`.  The divisor mirrors the `u32`
subtraction `resolution - 1` before the float cast. -/
noncomputable def meshVertex (resolution : ℕ) (local_up axis_a axis_b : Vec3)
    (x y : ℕ) : SphereMeshVertex :=
  let px : ℝ := (x : ℝ) / ((resolution - 1 : ℕ) : ℝ)
  let py : ℝ := (y : ℝ) / ((resolution - 1 : ℕ) : ℝ)
  let point_on_unit_cube :=
    Vec3.add local_up
      (Vec3.add (Vec3.smul ((px - 0.5) * 2) axis_a) (Vec3.smul ((py - 0.5) * 2) axis_b))
  { position := point_on_unit_cube.normalize, color := ⟨0.5, 0.5, 0.5⟩ }

/-- The vertices pushed by `Mesh::new`, in push order: `x` is the outer loop,
`y` the inner loop, both over `0..resolution`. -/
noncomputable def verticesList (resolution : ℕ) (local_up axis_a axis_b : Vec3) :
    List SphereMeshVertex :=
  (List.range resolution).flatMap fun x =>
    (List.range resolution).map fun y => meshVertex resolution local_up axis_a axis_b x y

/-- The six indices pushed for the cell visited at loop coordinates `(x, y)`
with `i = x + y * resolution`: first triangle `i, i + resolution + 1,
i + resolution`, second triangle `i, i + 1, i + resolution + 1`. -/
def cellTriangles (resolution x y : ℕ) : List ℕ :=
  [x + y * resolution, x + y * resolution + resolution + 1, x + y * resolution + resolution,
   x + y * resolution, x + y * resolution + 1, x + y * resolution + resolution + 1]

/-- The index list pushed by `Mesh::new`, in push order: for each `(x, y)`
with `x != resolution - 1 && y != resolution - 1`, six indices are pushed. -/
def trianglesList (resolution : ℕ) : List ℕ :=
  (List.range resolution).flatMap fun x =>
    (List.range resolution).flatMap fun y =>
      if x ≠ resolution - 1 ∧ y ≠ resolution - 1 then cellTriangles resolution x y else []

/-- A face mesh, `Mesh` from `src/sphere.rs`.  The GPU vertex and index
buffers are represented by the CPU-side arrays whose bytes initialise them;
`num_elements = triangles.len()`. -/
structure Mesh where
  resolution : ℕ
  local_up : Vec3
  axis_a : Vec3
  axis_b : Vec3
  vertices : List SphereMeshVertex
  triangles : List ℕ
  num_elements : ℕ

/-- Model of `Mesh::new`: derives `axis_a` as the fixed component permutation of
`local_up`, `axis_b` as their cross product, then builds the vertex and
index arrays (the `device` parameter, used only to upload the arrays, is
dropped). -/
noncomputable def Mesh.new (resolution : ℕ) (local_up : Vec3) : Mesh :=
  let axis_a : Vec3 := ⟨local_up.y, local_up.z, local_up.x⟩
  let axis_b := Vec3.cross local_up axis_a
  { resolution := resolution
    local_up := local_up
    axis_a := axis_a
    axis_b := axis_b
    vertices := verticesList resolution local_up axis_a axis_b
    triangles := trianglesList resolution
    num_elements := (trianglesList resolution).length }

/-- The `DIRECTIONS` constant of `src/sphere.rs`: up, down, left, right,
forward, back. -/
def DIRECTIONS : List Vec3 :=
  [⟨0, 1, 0⟩, ⟨0, -1, 0⟩, ⟨-1, 0, 0⟩, ⟨1, 0, 0⟩, ⟨0, 0, 1⟩, ⟨0, 0, -1⟩]

/-- The `Sphere` aggregate: its list of face meshes. -/
structure Sphere where
  meshes : List Mesh

/-- Model of `Sphere::new`: one `Mesh::new` call per entry of `DIRECTIONS`, in order. -/
noncomputable def Sphere.new (resolution : ℕ) : Sphere :=
  ⟨DIRECTIONS.map fun dir => Mesh.new resolution dir⟩

/-- Row/column grid coordinates of a vertex-array index: index `j` was pushed
for outer-loop value `j / resolution` and inner-loop value `j % resolution`. -/
def gridCoord (resolution j : ℕ) : ℤ × ℤ := ((j / resolution : ℕ), (j % resolution : ℕ))

/-- Push-order index of the vertex at grid coordinates `(row, col)`:
row is the outer `x` loop, col the inner `y` loop of `Mesh::new`. -/
def vertexPushIndex (resolution row col : ℕ) : ℕ := row * resolution + col

/-- Twice the signed area of a triangle in grid-coordinate space; a common
sign over all triangles expresses consistent winding. -/
def orient2D (a b c : ℤ × ℤ) : ℤ :=
  (b.1 - a.1) * (c.2 - a.2) - (b.2 - a.2) * (c.1 - a.1)

/-- The `Camera` struct of `src/camera.rs`. -/
structure Camera where
  eye : Vec3
  target : Vec3
  up : Vec3
  aspect : ℝ
  fovy : ℝ
  znear : ℝ
  zfar : ℝ

/-- A 4-component vector, `cgmath::Vector4<f32>`. -/
structure Vec4 where
  x : ℝ
  y : ℝ
  z : ℝ
  w : ℝ

/-- Componentwise addition of 4-vectors. -/
def Vec4.add (a b : Vec4) : Vec4 := ⟨a.x + b.x, a.y + b.y, a.z + b.z, a.w + b.w⟩

/-- Scalar multiplication of 4-vectors. -/
def Vec4.smul (r : ℝ) (a : Vec4) : Vec4 := ⟨r * a.x, r * a.y, r * a.z, r * a.w⟩

/-- A 4x4 matrix as its four columns, mirroring `cgmath::Matrix4<f32>`. -/
structure Mat4 where
  x : Vec4
  y : Vec4
  z : Vec4
  w : Vec4

/-- Model of `cgmath::Matrix4::new`, taking the sixteen entries in column-major
order exactly as the source writes them. -/
def mat4New (c0x c0y c0z c0w c1x c1y c1z c1w c2x c2y c2z c2w c3x c3y c3z c3w : ℝ) : Mat4 :=
  ⟨⟨c0x, c0y, c0z, c0w⟩, ⟨c1x, c1y, c1z, c1w⟩, ⟨c2x, c2y, c2z, c2w⟩, ⟨c3x, c3y, c3z, c3w⟩⟩

/-- Matrix-vector product: the linear combination of the columns by the
vector's components. -/
def Mat4.mulVec (m : Mat4) (v : Vec4) : Vec4 :=
  Vec4.add (Vec4.smul v.x m.x)
    (Vec4.add (Vec4.smul v.y m.y) (Vec4.add (Vec4.smul v.z m.z) (Vec4.smul v.w m.w)))

/-- Matrix-matrix product, columnwise. -/
def Mat4.mul (a b : Mat4) : Mat4 := ⟨a.mulVec b.x, a.mulVec b.y, a.mulVec b.z, a.mulVec b.w⟩

/-- The `OPENGL_TO_WGPU_MATRIX` build-time constant of `src/camera.rs`,
written column-major exactly as in the source. -/
def OPENGL_TO_WGPU_MATRIX : Mat4 := mat4New
  1 0 0 0
  0 1 0 0
  0 0 0.5 0
  0 0 0.5 1

/-- Model of `cgmath::perspective(Deg(fovy), aspect, near, far)`: degrees are
converted to radians, `f` is the cotangent of half the field of view, and
the matrix is the standard right-handed OpenGL perspective projection. -/
noncomputable def perspectiveDeg (fovy aspect near far : ℝ) : Mat4 :=
  let f := (Real.tan (fovy * (Real.pi / 180) / 2))⁻¹
  mat4New
    (f / aspect) 0 0 0
    0 f 0 0
    0 0 ((far + near) / (near - far)) (-1)
    0 0 ((2 * far * near) / (near - far)) 0

/-- Model of `cgmath::Matrix4::look_at_rh(eye, center, up)`. -/
noncomputable def lookAtRh (eye center up : Vec3) : Mat4 :=
  let f := (Vec3.sub center eye).normalize
  let s := (Vec3.cross f up).normalize
  let u := Vec3.cross s f
  mat4New
    s.x u.x (-f.x) 0
    s.y u.y (-f.y) 0
    s.z u.z (-f.z) 0
    (-(Vec3.dot eye s)) (-(Vec3.dot eye u)) (Vec3.dot eye f) 1

/-- Model of `Camera::build_view_projection_matrix`: the right-handed look-at view,
composed with the perspective projection, composed with the fixed
conversion constant. -/
noncomputable def Camera.build_view_projection_matrix (c : Camera) : Mat4 :=
  let view := lookAtRh c.eye c.target c.up
  let proj := perspectiveDeg c.fovy c.aspect c.znear c.zfar
  Mat4.mul OPENGL_TO_WGPU_MATRIX (Mat4.mul proj view)

/-- The `CameraController` struct: speed and the six key-state booleans. -/
structure CameraController where
  speed : ℝ
  is_up_pressed : Bool
  is_down_pressed : Bool
  is_forward_pressed : Bool
  is_backward_pressed : Bool
  is_left_pressed : Bool
  is_right_pressed : Bool

/-- Model of `winit::event::ElementState`. -/
inductive ElementState where
  | Pressed
  | Released
deriving DecidableEq

/-- The virtual key codes distinguished by `process_events`; every key code
the `match` does not name is collapsed into `Other`. -/
inductive VirtualKeyCode where
  | Space
  | LShift
  | W
  | Up
  | A
  | Left
  | S
  | Down
  | D
  | Right
  | Escape
  | Other
deriving DecidableEq

/-- The window events distinguished by `process_events`: a keyboard input
carrying a state and an optional key code; every other event is collapsed
into one of the remaining constructors. -/
inductive WindowEvent where
  | KeyboardInput (state : ElementState) (virtual_keycode : Option VirtualKeyCode)
  | CloseRequested
  | Resized
  | OtherEvent

/-- Model of `CameraController::process_events`: mutation of `self` becomes returning
the updated controller together with the consumed flag. -/
def CameraController.process_events (c : CameraController) (event : WindowEvent) :
    CameraController × Bool :=
  match event with
  | .KeyboardInput state (some keycode) =>
    let is_pressed := decide (state = ElementState.Pressed)
    match keycode with
    | .Space => ({ c with is_up_pressed := is_pressed }, true)
    | .LShift => ({ c with is_down_pressed := is_pressed }, true)
    | .W | .Up => ({ c with is_forward_pressed := is_pressed }, true)
    | .A | .Left => ({ c with is_left_pressed := is_pressed }, true)
    | .S | .Down => ({ c with is_backward_pressed := is_pressed }, true)
    | .D | .Right => ({ c with is_right_pressed := is_pressed }, true)
    | _ => (c, false)
  | _ => (c, false)

/-- Model of `CameraController::update_camera`: the four sequential `eye` mutations
become a chain of four candidate eye values; the final camera keeps every
other field.  `right` is computed from the pre-move forward direction, and
`forward`/`forward_mag` are recomputed after the radial moves, exactly as in
the source. -/
noncomputable def CameraController.update_camera (c : CameraController) (camera : Camera) :
    Camera :=
  let forward := Vec3.sub camera.target camera.eye
  let forward_norm := forward.normalize
  let forward_mag := forward.norm
  let eye1 :=
    if c.is_forward_pressed = true ∧ c.speed < forward_mag then
      Vec3.add camera.eye (Vec3.smul c.speed forward_norm)
    else camera.eye
  let eye2 :=
    if c.is_backward_pressed = true then Vec3.sub eye1 (Vec3.smul c.speed forward_norm)
    else eye1
  let right := Vec3.cross forward_norm camera.up
  let forward2 := Vec3.sub camera.target eye2
  let forward_mag2 := forward2.norm
  let eye3 :=
    if c.is_right_pressed = true then
      Vec3.sub camera.target
        (Vec3.smul forward_mag2 (Vec3.normalize (Vec3.add forward2 (Vec3.smul c.speed right))))
    else eye2
  let eye4 :=
    if c.is_left_pressed = true then
      Vec3.sub camera.target
        (Vec3.smul forward_mag2 (Vec3.normalize (Vec3.sub forward2 (Vec3.smul c.speed right))))
    else eye3
  { camera with eye := eye4 }

/-- A quaternion as scalar plus vector part, `cgmath::Quaternion<f32>`. -/
structure Quat where
  s : ℝ
  v : Vec3

/-- The identity quaternion: scalar 1, vector 0. -/
def quatIdentity : Quat := ⟨1, ⟨0, 0, 0⟩⟩

/-- Model of `cgmath::Quaternion::from_axis_angle(axis, Deg(angle))`: the degree
angle is converted to radians and halved. -/
noncomputable def quatFromAxisAngleDeg (axis : Vec3) (angle : ℝ) : Quat :=
  ⟨Real.cos (angle * (Real.pi / 180) / 2),
   Vec3.smul (Real.sin (angle * (Real.pi / 180) / 2)) axis⟩

/-- One placed copy of the sphere, `instance::Instance`. -/
structure SceneInstance where
  position : Vec3
  rotation : Quat

/-- The instance grid built in `State::new` (`src/main.rs`, identically in
`Render::new`): `z` is the outer loop, `x` the inner loop over
`0..num_per_row`; positions are `space_between * (index - num_per_row / 2)`
on X and Z at height 0; the rotation is the 0-degree rotation about Z when
the position is the zero vector and the 45-degree rotation about the
normalized position otherwise. -/
noncomputable def buildGrid (num_per_row : ℕ) (space_between : ℝ) : List SceneInstance :=
  (List.range num_per_row).flatMap fun (z : ℕ) =>
    (List.range num_per_row).map fun (x : ℕ) =>
      let xf := space_between * ((x : ℝ) - (num_per_row : ℝ) / 2)
      let zf := space_between * ((z : ℝ) - (num_per_row : ℝ) / 2)
      let position : Vec3 := ⟨xf, 0, zf⟩
      let rotation :=
        if position = (⟨0, 0, 0⟩ : Vec3) then quatFromAxisAngleDeg ⟨0, 0, 1⟩ 0
        else quatFromAxisAngleDeg position.normalize 45
      { position := position, rotation := rotation }

/-- A controller whose only active key is forward, at the given speed. -/
def ctrlForward (s : ℝ) : CameraController := ⟨s, false, false, true, false, false, false⟩

/-- A controller whose only active key is right, at the given speed. -/
def ctrlRight (s : ℝ) : CameraController := ⟨s, false, false, false, false, false, true⟩

/-- A controller whose only active key is left, at the given speed. -/
def ctrlLeft (s : ℝ) : CameraController := ⟨s, false, false, false, false, true, false⟩

/-- The camera built in `State::new`: eye (0,1,2), target the origin, up the
Y axis, fovy 45, znear 0.1, zfar 100 (aspect taken as 1). -/
noncomputable def cam0 : Camera := ⟨⟨0, 1, 2⟩, ⟨0, 0, 0⟩, ⟨0, 1, 0⟩, 1, 45, 1/10, 100⟩

/-- The camera after `n` frames of `update_camera` with only the forward key
held at the `State::new` controller speed 0.2. -/
noncomputable def camSeq (n : ℕ) : Camera :=
  (CameraController.update_camera (ctrlForward (1/5)))^[n] cam0

/-- Scale factor of the eye along (0,1,2) after `n` forward-only frames:
each of the first 11 frames subtracts `sqrt 5 / 25`, after which the
overshoot guard stops all movement. -/
noncomputable def camSeqCoef (n : ℕ) : ℝ := 1 - (min n 11 : ℕ) * (Real.sqrt 5 / 25)

theorem Vec3.dot_self_nonneg (v : Vec3) : 0 ≤ v.dot v := by
  simp only [Vec3.dot]
  nlinarith [sq_nonneg v.x, sq_nonneg v.y, sq_nonneg v.z]

theorem Vec3.norm_nonneg (v : Vec3) : 0 ≤ v.norm := Real.sqrt_nonneg _

theorem Vec3.dot_self_pos (v : Vec3) (h : v ≠ ⟨0, 0, 0⟩) : 0 < v.dot v := by
  by_contra hle
  push_neg at hle
  simp only [Vec3.dot] at hle
  have hx : v.x = 0 := by nlinarith [sq_nonneg v.x, sq_nonneg v.y, sq_nonneg v.z]
  have hy : v.y = 0 := by nlinarith [sq_nonneg v.x, sq_nonneg v.y, sq_nonneg v.z]
  have hz : v.z = 0 := by nlinarith [sq_nonneg v.x, sq_nonneg v.y, sq_nonneg v.z]
  exact h (Vec3.ext hx hy hz)

theorem Vec3.norm_pos (v : Vec3) (h : v ≠ ⟨0, 0, 0⟩) : 0 < v.norm :=
  Real.sqrt_pos.mpr (v.dot_self_pos h)

theorem Vec3.norm_smul (c : ℝ) (v : Vec3) : (Vec3.smul c v).norm = |c| * v.norm := by
  have h : (Vec3.smul c v).dot (Vec3.smul c v) = c ^ 2 * v.dot v := by
    simp only [Vec3.dot, Vec3.smul]; ring
  rw [Vec3.norm, h, Real.sqrt_mul (sq_nonneg c), Real.sqrt_sq_eq_abs]
  rfl

theorem Vec3.norm_normalize (v : Vec3) (h : v ≠ ⟨0, 0, 0⟩) : v.normalize.norm = 1 := by
  have hp := v.norm_pos h
  rw [Vec3.normalize, Vec3.norm_smul, abs_of_pos (inv_pos.mpr hp), inv_mul_cancel₀ (ne_of_gt hp)]

theorem Vec3.dot_cross_smul_self (a b : Vec3) (c : ℝ) :
    a.dot (Vec3.cross (Vec3.smul c a) b) = 0 := by
  simp only [Vec3.dot, Vec3.cross, Vec3.smul]; ring

theorem Vec3.sub_sub_cancel (a b : Vec3) : Vec3.sub a (Vec3.sub a b) = b := by
  ext <;> simp [Vec3.sub]

theorem Vec3.sub_eq_zero_iff (a b : Vec3) : Vec3.sub a b = (⟨0, 0, 0⟩ : Vec3) ↔ a = b := by
  constructor
  · intro h
    have hx := congrArg Vec3.x h
    have hy := congrArg Vec3.y h
    have hz := congrArg Vec3.z h
    simp only [Vec3.sub] at hx hy hz
    exact Vec3.ext (by linarith) (by linarith) (by linarith)
  · intro h
    subst h
    ext <;> simp [Vec3.sub]

/-- C7: `Sphere::new` invokes the face mesh generator exactly once per
canonical axis direction, in the fixed order up, down, left, right, forward,
back, and yields exactly 6 face meshes regardless of the resolution. -/
theorem c7_sphere_six_faces (resolution : ℕ) :
    (Sphere.new resolution).meshes =
      [Mesh.new resolution ⟨0, 1, 0⟩, Mesh.new resolution ⟨0, -1, 0⟩,
       Mesh.new resolution ⟨-1, 0, 0⟩, Mesh.new resolution ⟨1, 0, 0⟩,
       Mesh.new resolution ⟨0, 0, 1⟩, Mesh.new resolution ⟨0, 0, -1⟩] ∧
    (Sphere.new resolution).meshes.length = 6 :=
  ⟨rfl, rfl⟩

/-- C4: calling the face mesh generator with resolution 1 does not fail; it
runs to completion and yields a degenerate mesh with a single vertex and an
empty index list, contradicting the required InvalidParameter failure. -/
theorem c4_resolution_one_accepted :
    (Mesh.new 1 ⟨0, 1, 0⟩).vertices.length = 1 ∧
    (Mesh.new 1 ⟨0, 1, 0⟩).triangles = [] ∧
    (Mesh.new 1 ⟨0, 1, 0⟩).num_elements = 0 :=
  ⟨rfl, rfl, rfl⟩

/-- C9: `process_events` sets or clears exactly the matching key boolean and
returns true for the recognized directional keys (Space, LShift, W/Up,
A/Left, S/Down, D/Right); every other input leaves the controller unchanged
and returns false. -/
theorem c9_process_events_cases (c : CameraController) (st : ElementState) :
    (CameraController.process_events c (.KeyboardInput st (some .Space)) =
        ({ c with is_up_pressed := decide (st = .Pressed) }, true)) ∧
    (CameraController.process_events c (.KeyboardInput st (some .LShift)) =
        ({ c with is_down_pressed := decide (st = .Pressed) }, true)) ∧
    (CameraController.process_events c (.KeyboardInput st (some .W)) =
        ({ c with is_forward_pressed := decide (st = .Pressed) }, true)) ∧
    (CameraController.process_events c (.KeyboardInput st (some .Up)) =
        ({ c with is_forward_pressed := decide (st = .Pressed) }, true)) ∧
    (CameraController.process_events c (.KeyboardInput st (some .A)) =
        ({ c with is_left_pressed := decide (st = .Pressed) }, true)) ∧
    (CameraController.process_events c (.KeyboardInput st (some .Left)) =
        ({ c with is_left_pressed := decide (st = .Pressed) }, true)) ∧
    (CameraController.process_events c (.KeyboardInput st (some .S)) =
        ({ c with is_backward_pressed := decide (st = .Pressed) }, true)) ∧
    (CameraController.process_events c (.KeyboardInput st (some .Down)) =
        ({ c with is_backward_pressed := decide (st = .Pressed) }, true)) ∧
    (CameraController.process_events c (.KeyboardInput st (some .D)) =
        ({ c with is_right_pressed := decide (st = .Pressed) }, true)) ∧
    (CameraController.process_events c (.KeyboardInput st (some .Right)) =
        ({ c with is_right_pressed := decide (st = .Pressed) }, true)) ∧
    (CameraController.process_events c (.KeyboardInput st (some .Escape)) = (c, false)) ∧
    (CameraController.process_events c (.KeyboardInput st (some .Other)) = (c, false)) ∧
    (CameraController.process_events c (.KeyboardInput st none) = (c, false)) ∧
    (CameraController.process_events c .CloseRequested = (c, false)) ∧
    (CameraController.process_events c .Resized = (c, false)) ∧
    (CameraController.process_events c .OtherEvent = (c, false)) :=
  ⟨rfl, rfl, rfl, rfl, rfl, rfl, rfl, rfl, rfl, rfl, rfl, rfl, rfl, rfl, rfl, rfl⟩

/-- C8: the view-projection matrix is the composition of the fixed
conversion constant, the perspective projection from degrees of field of
view, and the right-handed look-at view; and the conversion constant maps a
clip-space point (x, y, z, w) to (x, y, 0.5 z + 0.5 w, w). -/
theorem c8_view_projection_composition (c : Camera) :
    c.build_view_projection_matrix =
      Mat4.mul OPENGL_TO_WGPU_MATRIX
        (Mat4.mul (perspectiveDeg c.fovy c.aspect c.znear c.zfar)
          (lookAtRh c.eye c.target c.up)) ∧
    ∀ x y z w : ℝ, Mat4.mulVec OPENGL_TO_WGPU_MATRIX ⟨x, y, z, w⟩ =
      ⟨x, y, 0.5 * z + 0.5 * w, w⟩ := by
  refine ⟨rfl, fun x y z w => ?_⟩
  simp only [OPENGL_TO_WGPU_MATRIX, mat4New, Mat4.mulVec, Vec4.add, Vec4.smul]
  norm_num
  ring

theorem flatMapLengthConst {α β : Type} (l : List α) (f : α → List β) (k : ℕ)
    (h : ∀ a ∈ l, (f a).length = k) : (l.flatMap f).length = l.length * k := by
  induction l with
  | nil => simp
  | cons a t ih =>
    simp only [List.flatMap_cons, List.length_append, List.length_cons]
    rw [h a (by simp), ih (fun b hb => h b (by simp [hb]))]
    ring

theorem trianglesInner_length_ne (resolution x : ℕ) (hx : x ≠ resolution - 1)
    (h2 : 2 ≤ resolution) :
    ((List.range resolution).flatMap fun y =>
      if x ≠ resolution - 1 ∧ y ≠ resolution - 1 then cellTriangles resolution x y
      else []).length = 6 * (resolution - 1) := by
  obtain ⟨r, rfl⟩ : ∃ r, resolution = r + 1 := ⟨resolution - 1, by omega⟩
  simp only [Nat.add_sub_cancel] at hx ⊢
  rw [List.range_succ, List.flatMap_append, List.length_append]
  have hy : ∀ y ∈ List.range r,
      ((fun y => if x ≠ r ∧ y ≠ r then cellTriangles (r + 1) x y else []) y).length = 6 := by
    intro y hym
    have hyr : y < r := List.mem_range.mp hym
    simp only
    rw [if_pos ⟨hx, by omega⟩]
    rfl
  rw [flatMapLengthConst _ _ 6 hy]
  simp only [List.flatMap_cons, List.flatMap_nil, List.length_range]
  rw [if_neg (by omega)]
  simp
  ring

theorem trianglesInner_length_eq (resolution x : ℕ) (hx : x = resolution - 1) :
    ((List.range resolution).flatMap fun y =>
      if x ≠ resolution - 1 ∧ y ≠ resolution - 1 then cellTriangles resolution x y
      else []).length = 0 := by
  rw [flatMapLengthConst _ _ 0 (fun y hym => by rw [if_neg (by omega)]; rfl)]
  simp

theorem cellIndexBound (r x y j : ℕ) (hx : x ≤ r) (hy : y ≤ r)
    (hj : j ∈ cellTriangles (r + 2) x y) : j < (r + 2) * (r + 2) := by
  have h1 : y * (r + 2) ≤ r * (r + 2) := Nat.mul_le_mul_right _ hy
  have h2 : (r + 2) * (r + 2) = r * (r + 2) + 2 * r + 4 := by ring
  simp only [cellTriangles, List.mem_cons, List.not_mem_nil, or_false] at hj
  rcases hj with rfl | rfl | rfl | rfl | rfl | rfl <;> rw [h2] <;> linarith

/-- C1: for every resolution at least 2 and each canonical local-up
direction, `Mesh::new` produces exactly resolution-squared vertices and
6 (resolution-1)-squared indices, and every emitted index is strictly below
the vertex count. -/
theorem c1_face_mesh_counts (resolution : ℕ) (local_up : Vec3)
    (h2 : 2 ≤ resolution) (hup : local_up ∈ DIRECTIONS) :
    (Mesh.new resolution local_up).vertices.length = resolution * resolution ∧
    (Mesh.new resolution local_up).triangles.length =
      6 * ((resolution - 1) * (resolution - 1)) ∧
    ∀ j ∈ (Mesh.new resolution local_up).triangles, j < resolution * resolution := by
  have hv : (Mesh.new resolution local_up).vertices =
      verticesList resolution local_up ⟨local_up.y, local_up.z, local_up.x⟩
        (Vec3.cross local_up ⟨local_up.y, local_up.z, local_up.x⟩) := rfl
  have ht : (Mesh.new resolution local_up).triangles = trianglesList resolution := rfl
  refine ⟨?_, ?_, ?_⟩
  · rw [hv, verticesList, flatMapLengthConst _ _ resolution (fun a ha => by simp)]
    simp
  · rw [ht, trianglesList]
    obtain ⟨r, rfl⟩ : ∃ r, resolution = r + 1 := ⟨resolution - 1, by omega⟩
    have houter : ∀ x ∈ List.range r,
        ((fun x => (List.range (r + 1)).flatMap fun y =>
          if x ≠ r + 1 - 1 ∧ y ≠ r + 1 - 1 then cellTriangles (r + 1) x y else []) x).length
          = 6 * r := by
      intro x hxm
      have hxr : x < r := List.mem_range.mp hxm
      have := trianglesInner_length_ne (r + 1) x (by omega) (by omega)
      simpa using this
    have hlast := trianglesInner_length_eq (r + 1) r (by omega)
    nth_rewrite 1 [List.range_succ]
    rw [List.flatMap_append, List.length_append, flatMapLengthConst _ _ (6 * r) houter]
    simp only [List.flatMap_cons, List.flatMap_nil, List.append_nil, List.length_range]
    rw [hlast]
    simp only [Nat.add_sub_cancel]
    ring
  · intro j hj
    rw [ht, trianglesList, List.mem_flatMap] at hj
    obtain ⟨x, hxm, hj⟩ := hj
    rw [List.mem_flatMap] at hj
    obtain ⟨y, hym, hj⟩ := hj
    have hxlt : x < resolution := List.mem_range.mp hxm
    have hylt : y < resolution := List.mem_range.mp hym
    by_cases hc : x ≠ resolution - 1 ∧ y ≠ resolution - 1
    · rw [if_pos hc] at hj
      obtain ⟨r, rfl⟩ : ∃ r, resolution = r + 2 := ⟨resolution - 2, by omega⟩
      exact cellIndexBound r x y j (by omega) (by omega) hj
    · rw [if_neg hc] at hj
      simp at hj

/-- Witness for C1 at resolution 3 with the up direction. -/
theorem c1_face_mesh_counts_witness :
    2 ≤ 3 ∧ (⟨0, 1, 0⟩ : Vec3) ∈ DIRECTIONS ∧
    (Mesh.new 3 ⟨0, 1, 0⟩).vertices.length = 9 ∧
    (Mesh.new 3 ⟨0, 1, 0⟩).triangles.length = 24 ∧
    ∀ j ∈ (Mesh.new 3 ⟨0, 1, 0⟩).triangles, j < 9 := by
  have h := c1_face_mesh_counts 3 ⟨0, 1, 0⟩ (by norm_num) (List.Mem.head _)
  exact ⟨by norm_num, List.Mem.head _, by simpa using h.1, by simpa using h.2.1,
    by simpa using h.2.2⟩

theorem gridCoord_eval (resolution a b : ℕ) (hb : b < resolution) :
    gridCoord resolution (b + a * resolution) = ((a : ℤ), (b : ℤ)) := by
  unfold gridCoord
  have hres : 0 < resolution := by omega
  have hdiv : (b + a * resolution) / resolution = a := by
    rw [Nat.add_mul_div_right _ _ hres, Nat.div_eq_of_lt hb, Nat.zero_add]
  have hmod : (b + a * resolution) % resolution = b := by
    rw [Nat.add_mul_mod_self_right, Nat.mod_eq_of_lt hb]
  rw [hdiv, hmod]

/-- C2: each interior cell contributes exactly two triangles (six indices),
every contributed index is one of the four vertex indices bounding a single
grid cell (the cell at row y, column x in push-order coordinates), both
triangles have the same negative orientation in grid space (consistent
winding), and every index of the mesh's triangle list comes from such an
interior cell. -/
theorem c2_cell_triangles_winding (resolution x y : ℕ)
    (hx : x < resolution - 1) (hy : y < resolution - 1) :
    (cellTriangles resolution x y =
      [x + y * resolution, x + y * resolution + resolution + 1,
       x + y * resolution + resolution] ++
      [x + y * resolution, x + y * resolution + 1,
       x + y * resolution + resolution + 1]) ∧
    (∀ j ∈ cellTriangles resolution x y,
      j ∈ [vertexPushIndex resolution y x, vertexPushIndex resolution y (x + 1),
           vertexPushIndex resolution (y + 1) x, vertexPushIndex resolution (y + 1) (x + 1)]) ∧
    orient2D (gridCoord resolution (x + y * resolution))
      (gridCoord resolution (x + y * resolution + resolution + 1))
      (gridCoord resolution (x + y * resolution + resolution)) = -1 ∧
    orient2D (gridCoord resolution (x + y * resolution))
      (gridCoord resolution (x + y * resolution + 1))
      (gridCoord resolution (x + y * resolution + resolution + 1)) = -1 ∧
    ∀ j ∈ trianglesList resolution, ∃ a b, a < resolution - 1 ∧ b < resolution - 1 ∧
      j ∈ cellTriangles resolution a b := by
  have hres : 2 ≤ resolution := by omega
  have hxr : x + 1 < resolution := by omega
  have hyr : y + 1 ≤ resolution - 1 := by omega
  have g1 : gridCoord resolution (x + y * resolution) = ((y : ℤ), (x : ℤ)) :=
    gridCoord_eval resolution y x (by omega)
  have e2 : x + y * resolution + resolution + 1 = (x + 1) + (y + 1) * resolution := by ring
  have g2 : gridCoord resolution (x + y * resolution + resolution + 1) =
      (((y + 1 : ℕ) : ℤ), ((x + 1 : ℕ) : ℤ)) := by
    rw [e2]; exact gridCoord_eval resolution (y + 1) (x + 1) hxr
  have e3 : x + y * resolution + resolution = x + (y + 1) * resolution := by ring
  have g3 : gridCoord resolution (x + y * resolution + resolution) =
      (((y + 1 : ℕ) : ℤ), (x : ℤ)) := by
    rw [e3]; exact gridCoord_eval resolution (y + 1) x (by omega)
  have e4 : x + y * resolution + 1 = (x + 1) + y * resolution := by ring
  have g4 : gridCoord resolution (x + y * resolution + 1) = ((y : ℤ), ((x + 1 : ℕ) : ℤ)) := by
    rw [e4]; exact gridCoord_eval resolution y (x + 1) hxr
  refine ⟨rfl, ?_, ?_, ?_, ?_⟩
  · intro j hj
    simp only [cellTriangles, List.mem_cons, List.not_mem_nil, or_false] at hj
    simp only [vertexPushIndex, List.mem_cons, List.not_mem_nil, or_false]
    rcases hj with rfl | rfl | rfl | rfl | rfl | rfl
    · left; ring
    · right; right; right; ring
    · right; right; left; ring
    · left; ring
    · right; left; ring
    · right; right; right; ring
  · rw [g1, g2, g3]
    simp only [orient2D]
    push_cast
    ring
  · rw [g1, g4, g2]
    simp only [orient2D]
    push_cast
    ring
  · intro j hj
    rw [trianglesList, List.mem_flatMap] at hj
    obtain ⟨a, ham, hj⟩ := hj
    rw [List.mem_flatMap] at hj
    obtain ⟨b, hbm, hj⟩ := hj
    have halt : a < resolution := List.mem_range.mp ham
    have hblt : b < resolution := List.mem_range.mp hbm
    by_cases hc : a ≠ resolution - 1 ∧ b ≠ resolution - 1
    · rw [if_pos hc] at hj
      exact ⟨a, b, by omega, by omega, hj⟩
    · rw [if_neg hc] at hj
      simp at hj

/-- Witness for C2 at resolution 3, cell (0, 0). -/
theorem c2_cell_triangles_winding_witness :
    0 < 3 - 1 ∧
    orient2D (gridCoord 3 0) (gridCoord 3 4) (gridCoord 3 3) = -1 ∧
    orient2D (gridCoord 3 0) (gridCoord 3 1) (gridCoord 3 4) = -1 :=
  ⟨by decide, (c2_cell_triangles_winding 3 0 0 (by decide) (by decide)).2.2.1,
   (c2_cell_triangles_winding 3 0 0 (by decide) (by decide)).2.2.2.1⟩

/-- C10: `update_camera` mutates at most the eye: every other camera field
is preserved for every controller state, and when all six key booleans are
false the camera is entirely unchanged. -/
theorem c10_update_camera_frame_effect (c : CameraController) (camera : Camera) :
    ((c.update_camera camera).target = camera.target ∧
     (c.update_camera camera).up = camera.up ∧
     (c.update_camera camera).aspect = camera.aspect ∧
     (c.update_camera camera).fovy = camera.fovy ∧
     (c.update_camera camera).znear = camera.znear ∧
     (c.update_camera camera).zfar = camera.zfar) ∧
    (c.is_up_pressed = false → c.is_down_pressed = false → c.is_forward_pressed = false →
     c.is_backward_pressed = false → c.is_left_pressed = false → c.is_right_pressed = false →
     c.update_camera camera = camera) := by
  refine ⟨⟨rfl, rfl, rfl, rfl, rfl, rfl⟩, ?_⟩
  intro h1 h2 h3 h4 h5 h6
  simp only [CameraController.update_camera, h3, h4, h5, h6]
  simp

/-- Witness for C10 with every key released on the `State::new` camera. -/
theorem c10_update_camera_frame_effect_witness :
    (CameraController.update_camera ⟨1/5, false, false, false, false, false, false⟩ cam0).target
      = cam0.target ∧
    CameraController.update_camera ⟨1/5, false, false, false, false, false, false⟩ cam0 = cam0 :=
  ⟨(c10_update_camera_frame_effect ⟨1/5, false, false, false, false, false, false⟩ cam0).1.1,
   (c10_update_camera_frame_effect ⟨1/5, false, false, false, false, false, false⟩ cam0).2
     rfl rfl rfl rfl rfl rfl⟩

theorem update_right_only (cam : Camera) (s : ℝ) :
    (ctrlRight s).update_camera cam =
      { cam with
        eye := Vec3.sub cam.target
          (Vec3.smul (Vec3.sub cam.target cam.eye).norm
            (Vec3.normalize (Vec3.add (Vec3.sub cam.target cam.eye)
              (Vec3.smul s (Vec3.cross (Vec3.sub cam.target cam.eye).normalize cam.up))))) } := by
  simp only [CameraController.update_camera, ctrlRight]
  simp

theorem update_left_only (cam : Camera) (s : ℝ) :
    (ctrlLeft s).update_camera cam =
      { cam with
        eye := Vec3.sub cam.target
          (Vec3.smul (Vec3.sub cam.target cam.eye).norm
            (Vec3.normalize (Vec3.sub (Vec3.sub cam.target cam.eye)
              (Vec3.smul s (Vec3.cross (Vec3.sub cam.target cam.eye).normalize cam.up))))) } := by
  simp only [CameraController.update_camera, ctrlLeft]
  simp

theorem orbit_step_norm_add (f r : Vec3) (s : ℝ) (hf : f ≠ ⟨0, 0, 0⟩) (hfr : f.dot r = 0) :
    (Vec3.smul f.norm (Vec3.normalize (Vec3.add f (Vec3.smul s r)))).norm = f.norm := by
  have hww : (Vec3.add f (Vec3.smul s r)).dot (Vec3.add f (Vec3.smul s r)) =
      f.dot f + s ^ 2 * r.dot r + 2 * s * f.dot r := by
    simp only [Vec3.dot, Vec3.add, Vec3.smul]; ring
  have hpos : 0 < (Vec3.add f (Vec3.smul s r)).dot (Vec3.add f (Vec3.smul s r)) := by
    rw [hww, hfr]
    have h1 := f.dot_self_pos hf
    have h2 : 0 ≤ s ^ 2 * r.dot r := mul_nonneg (sq_nonneg s) r.dot_self_nonneg
    nlinarith
  have hwne : Vec3.add f (Vec3.smul s r) ≠ ⟨0, 0, 0⟩ := by
    intro hw
    rw [hw] at hpos
    simp [Vec3.dot] at hpos
  rw [Vec3.norm_smul, Vec3.norm_normalize _ hwne, mul_one, abs_of_nonneg f.norm_nonneg]

theorem orbit_step_norm_sub (f r : Vec3) (s : ℝ) (hf : f ≠ ⟨0, 0, 0⟩) (hfr : f.dot r = 0) :
    (Vec3.smul f.norm (Vec3.normalize (Vec3.sub f (Vec3.smul s r)))).norm = f.norm := by
  have hrw : Vec3.sub f (Vec3.smul s r) = Vec3.add f (Vec3.smul (-s) r) := by
    ext <;> simp [Vec3.sub, Vec3.add, Vec3.smul] <;> ring
  rw [hrw]
  exact orbit_step_norm_add f r (-s) hf hfr

theorem dist_preserved_right (cam : Camera) (s : ℝ) (h : cam.eye ≠ cam.target) :
    ((ctrlRight s).update_camera cam).target = cam.target ∧
    (Vec3.sub ((ctrlRight s).update_camera cam).target
      ((ctrlRight s).update_camera cam).eye).norm = (Vec3.sub cam.target cam.eye).norm := by
  have hf : Vec3.sub cam.target cam.eye ≠ ⟨0, 0, 0⟩ := fun hh =>
    h ((Vec3.sub_eq_zero_iff _ _).mp hh).symm
  refine ⟨rfl, ?_⟩
  rw [update_right_only]
  show (Vec3.sub cam.target (Vec3.sub cam.target _)).norm = _
  rw [Vec3.sub_sub_cancel]
  refine orbit_step_norm_add _ _ s hf ?_
  rw [Vec3.normalize]
  exact Vec3.dot_cross_smul_self _ cam.up _

theorem dist_preserved_left (cam : Camera) (s : ℝ) (h : cam.eye ≠ cam.target) :
    ((ctrlLeft s).update_camera cam).target = cam.target ∧
    (Vec3.sub ((ctrlLeft s).update_camera cam).target
      ((ctrlLeft s).update_camera cam).eye).norm = (Vec3.sub cam.target cam.eye).norm := by
  have hf : Vec3.sub cam.target cam.eye ≠ ⟨0, 0, 0⟩ := fun hh =>
    h ((Vec3.sub_eq_zero_iff _ _).mp hh).symm
  refine ⟨rfl, ?_⟩
  rw [update_left_only]
  show (Vec3.sub cam.target (Vec3.sub cam.target _)).norm = _
  rw [Vec3.sub_sub_cancel]
  refine orbit_step_norm_sub _ _ s hf ?_
  rw [Vec3.normalize]
  exact Vec3.dot_cross_smul_self _ cam.up _

theorem dist_preserved_iter_right (cam : Camera) (s : ℝ) (h : cam.eye ≠ cam.target) (n : ℕ) :
    (((ctrlRight s).update_camera)^[n] cam).target = cam.target ∧
    (Vec3.sub (((ctrlRight s).update_camera)^[n] cam).target
      (((ctrlRight s).update_camera)^[n] cam).eye).norm
      = (Vec3.sub cam.target cam.eye).norm := by
  induction n with
  | zero => exact ⟨rfl, rfl⟩
  | succ k ih =>
    rw [Function.iterate_succ_apply']
    have hf0 : Vec3.sub cam.target cam.eye ≠ ⟨0, 0, 0⟩ := fun hh =>
      h ((Vec3.sub_eq_zero_iff _ _).mp hh).symm
    have hnormpos := Vec3.norm_pos _ hf0
    have hne : (((ctrlRight s).update_camera)^[k] cam).eye ≠
        (((ctrlRight s).update_camera)^[k] cam).target := by
      intro he
      have h0 : Vec3.sub (((ctrlRight s).update_camera)^[k] cam).target
          (((ctrlRight s).update_camera)^[k] cam).eye = ⟨0, 0, 0⟩ :=
        (Vec3.sub_eq_zero_iff _ _).mpr he.symm
      have hzero : (Vec3.sub cam.target cam.eye).norm = 0 := by
        rw [← ih.2, h0]
        simp [Vec3.norm, Vec3.dot]
      linarith
    have step := dist_preserved_right (((ctrlRight s).update_camera)^[k] cam) s hne
    exact ⟨step.1.trans ih.1, step.2.trans ih.2⟩

theorem dist_preserved_iter_left (cam : Camera) (s : ℝ) (h : cam.eye ≠ cam.target) (n : ℕ) :
    (((ctrlLeft s).update_camera)^[n] cam).target = cam.target ∧
    (Vec3.sub (((ctrlLeft s).update_camera)^[n] cam).target
      (((ctrlLeft s).update_camera)^[n] cam).eye).norm
      = (Vec3.sub cam.target cam.eye).norm := by
  induction n with
  | zero => exact ⟨rfl, rfl⟩
  | succ k ih =>
    rw [Function.iterate_succ_apply']
    have hf0 : Vec3.sub cam.target cam.eye ≠ ⟨0, 0, 0⟩ := fun hh =>
      h ((Vec3.sub_eq_zero_iff _ _).mp hh).symm
    have hnormpos := Vec3.norm_pos _ hf0
    have hne : (((ctrlLeft s).update_camera)^[k] cam).eye ≠
        (((ctrlLeft s).update_camera)^[k] cam).target := by
      intro he
      have h0 : Vec3.sub (((ctrlLeft s).update_camera)^[k] cam).target
          (((ctrlLeft s).update_camera)^[k] cam).eye = ⟨0, 0, 0⟩ :=
        (Vec3.sub_eq_zero_iff _ _).mpr he.symm
      have hzero : (Vec3.sub cam.target cam.eye).norm = 0 := by
        rw [← ih.2, h0]
        simp [Vec3.norm, Vec3.dot]
      linarith
    have step := dist_preserved_left (((ctrlLeft s).update_camera)^[k] cam) s hne
    exact ⟨step.1.trans ih.1, step.2.trans ih.2⟩

/-- C3: for a camera with eye distinct from target and positive speed, any
number of right-key-only `update_camera` calls leaves the eye-to-target
distance unchanged, and symmetrically for the left key. -/
theorem c3_orbit_distance_invariant (cam : Camera) (s : ℝ)
    (h : cam.eye ≠ cam.target) (hs : 0 < s) : ∀ n : ℕ,
    (Vec3.sub (((ctrlRight s).update_camera)^[n] cam).target
      (((ctrlRight s).update_camera)^[n] cam).eye).norm
      = (Vec3.sub cam.target cam.eye).norm ∧
    (Vec3.sub (((ctrlLeft s).update_camera)^[n] cam).target
      (((ctrlLeft s).update_camera)^[n] cam).eye).norm
      = (Vec3.sub cam.target cam.eye).norm :=
  fun n => ⟨(dist_preserved_iter_right cam s h n).2, (dist_preserved_iter_left cam s h n).2⟩

/-- Witness for C3 on the `State::new` camera, speed 0.2, two updates. -/
theorem c3_orbit_distance_invariant_witness :
    cam0.eye ≠ cam0.target ∧ (0 : ℝ) < 1/5 ∧
    (Vec3.sub (((ctrlRight (1/5)).update_camera)^[2] cam0).target
      (((ctrlRight (1/5)).update_camera)^[2] cam0).eye).norm
      = (Vec3.sub cam0.target cam0.eye).norm := by
  have hne : cam0.eye ≠ cam0.target := by
    intro h
    have hy := congrArg Vec3.y h
    simp [cam0] at hy
  exact ⟨hne, by norm_num, (c3_orbit_distance_invariant cam0 (1/5) hne (by norm_num) 2).1⟩

theorem buildGrid_one_eval : buildGrid 1 3 =
    [(⟨⟨-(3/2), 0, -(3/2)⟩,
       quatFromAxisAngleDeg (Vec3.normalize ⟨-(3/2), 0, -(3/2)⟩) 45⟩ : SceneInstance)] := by
  have hne : (⟨-(3/2), 0, -(3/2)⟩ : Vec3) ≠ ⟨0, 0, 0⟩ := by
    intro h
    have hx := congrArg Vec3.x h
    norm_num at hx
  have h0 : List.range 1 = [0] := rfl
  rw [buildGrid, h0]
  simp only [List.flatMap_cons, List.flatMap_nil, List.map_cons, List.map_nil, List.append_nil,
    Nat.cast_zero, Nat.cast_one]
  have harg : (3 : ℝ) * ((0 : ℝ) - (1 : ℝ) / 2) = -(3/2) := by norm_num
  rw [harg, if_neg hne]

/-- C5 counterexample: the single instance of the 1-by-1 grid with spacing
3.0 is not at the origin with identity rotation; its position is
(-1.5, 0, -1.5). -/
theorem c5_counterexample :
    ¬ ∀ inst ∈ buildGrid 1 3, inst.position = (⟨0, 0, 0⟩ : Vec3) ∧
      inst.rotation = quatIdentity := by
  intro h
  have hmem : (⟨⟨-(3/2), 0, -(3/2)⟩,
      quatFromAxisAngleDeg (Vec3.normalize ⟨-(3/2), 0, -(3/2)⟩) 45⟩ : SceneInstance) ∈
      buildGrid 1 3 := by
    rw [buildGrid_one_eval]
    exact List.Mem.head _
  have hx := congrArg Vec3.x (h _ hmem).1
  norm_num at hx

/-- C5 amended: the 1-by-1 grid with spacing 3.0 yields exactly one
instance, its position is (-1.5, 0, -1.5), and its rotation is the
45-degree axis-angle rotation about the normalized position vector, which
is not the identity quaternion. -/
theorem c5_amended :
    buildGrid 1 3 = [(⟨⟨-(3/2), 0, -(3/2)⟩,
      quatFromAxisAngleDeg (Vec3.normalize ⟨-(3/2), 0, -(3/2)⟩) 45⟩ : SceneInstance)] ∧
    quatFromAxisAngleDeg (Vec3.normalize ⟨-(3/2), 0, -(3/2)⟩) 45 ≠ quatIdentity := by
  refine ⟨buildGrid_one_eval, ?_⟩
  intro h
  have hx := congrArg (fun q => q.v.x) h
  simp only [quatFromAxisAngleDeg, quatIdentity, Vec3.smul, Vec3.normalize] at hx
  have hsin : 0 < Real.sin (45 * (Real.pi / 180) / 2) := by
    apply Real.sin_pos_of_pos_of_lt_pi
    · have := Real.pi_pos
      linarith
    · have := Real.pi_pos
      linarith
  have hnorm : 0 < (⟨-(3/2), 0, -(3/2)⟩ : Vec3).norm := by
    apply Vec3.norm_pos
    intro hh
    have hc := congrArg Vec3.x hh
    norm_num at hc
  have hneg : Real.sin (45 * (Real.pi / 180) / 2) *
      (((⟨-(3/2), 0, -(3/2)⟩ : Vec3).norm)⁻¹ * -(3/2)) < 0 := by
    apply mul_neg_of_pos_of_neg hsin
    apply mul_neg_of_pos_of_neg (inv_pos.mpr hnorm)
    norm_num
  rw [hx] at hneg
  exact lt_irrefl 0 hneg

theorem sqrt5_pos : (0 : ℝ) < Real.sqrt 5 := Real.sqrt_pos.mpr (by norm_num)

theorem sqrt5_sq : Real.sqrt 5 * Real.sqrt 5 = 5 := Real.mul_self_sqrt (by norm_num)

theorem sqrt5_lt_25_11 : Real.sqrt 5 < 25/11 := (Real.sqrt_lt' (by norm_num)).mpr (by norm_num)

theorem sqrt5_lt_12_5 : Real.sqrt 5 < 12/5 := (Real.sqrt_lt' (by norm_num)).mpr (by norm_num)

theorem sqrt5_gt_11_5 : (11 : ℝ)/5 < Real.sqrt 5 := (Real.lt_sqrt (by norm_num)).mpr (by norm_num)

theorem update_forward_move (cam : Camera) (s : ℝ)
    (h : s < (Vec3.sub cam.target cam.eye).norm) :
    (ctrlForward s).update_camera cam =
      { cam with
        eye := Vec3.add cam.eye (Vec3.smul s (Vec3.sub cam.target cam.eye).normalize) } := by
  simp only [CameraController.update_camera, ctrlForward]
  simp [h]

theorem update_forward_stop (cam : Camera) (s : ℝ)
    (h : ¬ s < (Vec3.sub cam.target cam.eye).norm) :
    (ctrlForward s).update_camera cam = cam := by
  simp only [CameraController.update_camera, ctrlForward]
  simp [h]

theorem cam0_smul_norm (k : ℝ) (hk : 0 ≤ k) :
    (Vec3.sub (⟨0, 0, 0⟩ : Vec3) (Vec3.smul k ⟨0, 1, 2⟩)).norm = k * Real.sqrt 5 := by
  have hd : (Vec3.sub (⟨0, 0, 0⟩ : Vec3) (Vec3.smul k ⟨0, 1, 2⟩)).dot
      (Vec3.sub (⟨0, 0, 0⟩ : Vec3) (Vec3.smul k ⟨0, 1, 2⟩)) = k ^ 2 * 5 := by
    simp only [Vec3.dot, Vec3.sub, Vec3.smul]
    ring
  rw [Vec3.norm, hd, Real.sqrt_mul (sq_nonneg k), Real.sqrt_sq_eq_abs, abs_of_nonneg hk]

theorem camStep_move (k : ℝ) (hk : 0 < k) (hg : 1/5 < k * Real.sqrt 5) :
    (ctrlForward (1/5)).update_camera { cam0 with eye := Vec3.smul k ⟨0, 1, 2⟩ } =
      { cam0 with eye := Vec3.smul (k - Real.sqrt 5 / 25) ⟨0, 1, 2⟩ } := by
  have hnorm : (Vec3.sub ({ cam0 with eye := Vec3.smul k ⟨0, 1, 2⟩ } : Camera).target
      ({ cam0 with eye := Vec3.smul k ⟨0, 1, 2⟩ } : Camera).eye).norm = k * Real.sqrt 5 := by
    show (Vec3.sub (⟨0, 0, 0⟩ : Vec3) (Vec3.smul k ⟨0, 1, 2⟩)).norm = _
    exact cam0_smul_norm k hk.le
  rw [update_forward_move _ _ (by rw [hnorm]; exact hg)]
  have heye : Vec3.add (Vec3.smul k ⟨0, 1, 2⟩)
      (Vec3.smul (1/5) (Vec3.normalize (Vec3.sub (⟨0, 0, 0⟩ : Vec3) (Vec3.smul k ⟨0, 1, 2⟩))))
      = Vec3.smul (k - Real.sqrt 5 / 25) ⟨0, 1, 2⟩ := by
    simp only [Vec3.normalize]
    rw [cam0_smul_norm k hk.le]
    have hknz : k ≠ 0 := ne_of_gt hk
    ext
    · simp [Vec3.add, Vec3.smul, Vec3.sub]
    · simp only [Vec3.add, Vec3.smul, Vec3.sub]
      field_simp
      nlinarith [sqrt5_sq, sqrt5_pos]
    · simp only [Vec3.add, Vec3.smul, Vec3.sub]
      field_simp
      nlinarith [sqrt5_sq, sqrt5_pos]
  exact congrArg (fun e => { cam0 with eye := e }) heye

theorem camStep_stop (k : ℝ) (hk : 0 ≤ k) (hg : ¬ 1/5 < k * Real.sqrt 5) :
    (ctrlForward (1/5)).update_camera { cam0 with eye := Vec3.smul k ⟨0, 1, 2⟩ } =
      { cam0 with eye := Vec3.smul k ⟨0, 1, 2⟩ } := by
  apply update_forward_stop
  show ¬ 1/5 < (Vec3.sub (⟨0, 0, 0⟩ : Vec3) (Vec3.smul k ⟨0, 1, 2⟩)).norm
  rw [cam0_smul_norm k hk]
  exact hg

theorem camSeqCoef_pos (n : ℕ) : 0 < camSeqCoef n := by
  unfold camSeqCoef
  have h1 : ((min n 11 : ℕ) : ℝ) ≤ 11 := by exact_mod_cast min_le_right n 11
  have h2 : (0 : ℝ) ≤ ((min n 11 : ℕ) : ℝ) := Nat.cast_nonneg _
  nlinarith [sqrt5_pos, sqrt5_lt_25_11]

theorem camSeq_closed (n : ℕ) :
    camSeq n = { cam0 with eye := Vec3.smul (camSeqCoef n) ⟨0, 1, 2⟩ } := by
  induction n with
  | zero =>
    show cam0 = _
    have h0 : camSeqCoef 0 = 1 := by
      unfold camSeqCoef
      norm_num
    rw [h0]
    have h1 : Vec3.smul 1 ⟨0, 1, 2⟩ = (⟨0, 1, 2⟩ : Vec3) := by
      ext <;> simp [Vec3.smul]
    rw [h1]
    rfl
  | succ m ih =>
    have hstep : camSeq (m + 1) = (ctrlForward (1/5)).update_camera (camSeq m) := by
      unfold camSeq
      rw [Function.iterate_succ_apply']
    rw [hstep, ih]
    by_cases hm : m < 11
    · have hcoefm : camSeqCoef m = 1 - (m : ℝ) * (Real.sqrt 5 / 25) := by
        unfold camSeqCoef
        rw [min_eq_left (by omega : m ≤ 11)]
      have hcoefm1 : camSeqCoef (m + 1) = 1 - ((m : ℝ) + 1) * (Real.sqrt 5 / 25) := by
        unfold camSeqCoef
        rw [min_eq_left (by omega : m + 1 ≤ 11)]
        push_cast
        ring
      have hg : 1/5 < camSeqCoef m * Real.sqrt 5 := by
        rw [hcoefm]
        have hmle : (m : ℝ) ≤ 10 := by exact_mod_cast (by omega : m ≤ 10)
        nlinarith [sqrt5_sq, sqrt5_pos, sqrt5_gt_11_5]
      rw [camStep_move (camSeqCoef m) (camSeqCoef_pos m) hg]
      have hco : camSeqCoef m - Real.sqrt 5 / 25 = camSeqCoef (m + 1) := by
        rw [hcoefm, hcoefm1]
        ring
      rw [hco]
    · have hco : camSeqCoef (m + 1) = camSeqCoef m := by
        unfold camSeqCoef
        rw [min_eq_right (by omega : (11 : ℕ) ≤ m), min_eq_right (by omega : (11 : ℕ) ≤ m + 1)]
      have hg : ¬ 1/5 < camSeqCoef m * Real.sqrt 5 := by
        unfold camSeqCoef
        rw [min_eq_right (by omega : (11 : ℕ) ≤ m)]
        push_neg
        push_cast
        nlinarith [sqrt5_sq, sqrt5_pos, sqrt5_lt_12_5]
      rw [camStep_stop (camSeqCoef m) (camSeqCoef_pos m).le hg, hco]

/-- C6: with only the forward key held, `update_camera` moves the eye toward
the target by the speed exactly when the distance exceeds the speed and
leaves the camera unchanged otherwise; consequently, from eye (0,1,2),
target (0,0,0) and speed 0.2, the eye-to-target distance after n frames is
sqrt 5 minus (min n 11)/5, so 11 frames drive it to at most the speed, the
eye never reaches the target, and the normalized forward vector is never
taken of a zero vector. -/
theorem c6_forward_guard_and_trajectory :
    (∀ (cam : Camera) (s : ℝ), s < (Vec3.sub cam.target cam.eye).norm →
      (ctrlForward s).update_camera cam =
        { cam with
          eye := Vec3.add cam.eye (Vec3.smul s (Vec3.sub cam.target cam.eye).normalize) }) ∧
    (∀ (cam : Camera) (s : ℝ), ¬ s < (Vec3.sub cam.target cam.eye).norm →
      (ctrlForward s).update_camera cam = cam) ∧
    (∀ n : ℕ, (Vec3.sub (camSeq n).target (camSeq n).eye).norm
      = Real.sqrt 5 - ((min n 11 : ℕ) : ℝ) * (1/5)) ∧
    (∀ n : ℕ, (camSeq n).eye ≠ (camSeq n).target) ∧
    (Vec3.sub (camSeq 11).target (camSeq 11).eye).norm ≤ 1/5 := by
  have hnormn : ∀ n : ℕ, (Vec3.sub (camSeq n).target (camSeq n).eye).norm
      = Real.sqrt 5 - ((min n 11 : ℕ) : ℝ) * (1/5) := by
    intro n
    rw [camSeq_closed n]
    show (Vec3.sub (⟨0, 0, 0⟩ : Vec3) (Vec3.smul (camSeqCoef n) ⟨0, 1, 2⟩)).norm = _
    rw [cam0_smul_norm _ (camSeqCoef_pos n).le]
    unfold camSeqCoef
    linear_combination (-(((min n 11 : ℕ) : ℝ)) / 25) * sqrt5_sq
  have hne : ∀ n : ℕ, (camSeq n).eye ≠ (camSeq n).target := by
    intro n h
    have h2 := congrArg Vec3.y h
    rw [camSeq_closed n] at h2
    have h3 : camSeqCoef n * 1 = 0 := h2
    have h4 := camSeqCoef_pos n
    nlinarith
  refine ⟨fun cam s h => update_forward_move cam s h,
    fun cam s h => update_forward_stop cam s h, hnormn, hne, ?_⟩
  rw [hnormn 11]
  have hmin : ((min 11 11 : ℕ) : ℝ) = 11 := by norm_num
  rw [hmin]
  linarith [sqrt5_lt_12_5]

/-- Witness for C6's overshoot guard at a camera already at its target. -/
theorem c6_forward_guard_and_trajectory_witness :
    ¬ (1/5 : ℝ) < (Vec3.sub (⟨⟨0, 0, 0⟩, ⟨0, 0, 0⟩, ⟨0, 1, 0⟩, 1, 45, 1, 100⟩ : Camera).target
      (⟨⟨0, 0, 0⟩, ⟨0, 0, 0⟩, ⟨0, 1, 0⟩, 1, 45, 1, 100⟩ : Camera).eye).norm ∧
    (ctrlForward (1/5)).update_camera (⟨⟨0, 0, 0⟩, ⟨0, 0, 0⟩, ⟨0, 1, 0⟩, 1, 45, 1, 100⟩ : Camera)
      = ⟨⟨0, 0, 0⟩, ⟨0, 0, 0⟩, ⟨0, 1, 0⟩, 1, 45, 1, 100⟩ := by
  have hng : ¬ (1/5 : ℝ) <
      (Vec3.sub (⟨⟨0, 0, 0⟩, ⟨0, 0, 0⟩, ⟨0, 1, 0⟩, 1, 45, 1, 100⟩ : Camera).target
        (⟨⟨0, 0, 0⟩, ⟨0, 0, 0⟩, ⟨0, 1, 0⟩, 1, 45, 1, 100⟩ : Camera).eye).norm := by
    show ¬ (1/5 : ℝ) < (Vec3.sub (⟨0, 0, 0⟩ : Vec3) (⟨0, 0, 0⟩ : Vec3)).norm
    have hn : (Vec3.sub (⟨0, 0, 0⟩ : Vec3) (⟨0, 0, 0⟩ : Vec3)).norm = 0 := by
      simp [Vec3.sub, Vec3.norm, Vec3.dot]
    rw [hn]
    norm_num
  exact ⟨hng, c6_forward_guard_and_trajectory.2.1 _ (1/5) hng⟩
